import Mathlib

/-!
Verification of the chip-input repository: a shallow embedding of the
token-list controller (src/presentation/components/ChipInput.tsx) and the
clipboard codec (src/application/serialization/ChipClipboardSerializer.ts),
with theorems settling the specified properties.

Modelling conventions:
- A Chip record mirrors the Chip entity of the domain layer.  The fields
  id and label are required strings; value is optional (value : Option
  String), matching the TypeScript interface where the "value" key is
  dropped from serialized output when absent.  The optional booleans
  selected and disabled are modelled as plain Bool because every read in
  the source treats a missing flag as false (JS truthiness) and every
  write stores a literal boolean.
- crypto.randomUUID is an ambient nondeterministic source; it is modelled
  as an injected generator genId : Nat -> String giving the id of the
  i-th freshly created chip of one decode call.  Freshness of generated
  ids is a hypothesis where a property depends on it.
- JSON.stringify / JSON.parse are modelled over List Char: the printer is
  specialized to the one payload shape the serializer ever stringifies
  (key insertion order and standard string escaping as produced by
  JSON.stringify), and the parser is a total fuel-indexed JSON parser
  covering the grammar the codec can receive, with numbers restricted to
  integers (the format only ever carries the integer version field).
- Thrown-and-caught exceptions and the console.error / console.warn
  side channels of the deserializer are modelled by an Except value whose
  error constructor records which of the three distinct failure branches
  of the source fired; the null-returning function of the source is its
  Except.toOption collapse.
-/

/-- The Chip entity (src/domain/entities/Chip.ts, re-exported through
App.tsx): id, label, optional value, and the two UI flags. -/
structure Chip where
  id : String
  label : String
  value : Option String
  selected : Bool
  disabled : Bool
deriving DecidableEq

/-- The whitespace class removed by the JavaScript String.prototype.trim
(ECMA-262 TrimString: WhiteSpace plus LineTerminator code points). -/
def isJsWhitespace (c : Char) : Bool :=
  c.toNat = 9 || c.toNat = 10 || c.toNat = 11 || c.toNat = 12 || c.toNat = 13 ||
  c.toNat = 32 || c.toNat = 0xa0 || c.toNat = 0x1680 ||
  (0x2000 ≤ c.toNat && c.toNat ≤ 0x200a) ||
  c.toNat = 0x2028 || c.toNat = 0x2029 || c.toNat = 0x202f ||
  c.toNat = 0x205f || c.toNat = 0x3000 || c.toNat = 0xfeff

/-- JavaScript String.prototype.trim on a character list. -/
def jsTrimList (cs : List Char) : List Char :=
  ((cs.dropWhile isJsWhitespace).reverse.dropWhile isJsWhitespace).reverse

/-- JavaScript String.prototype.trim. -/
def jsTrim (s : String) : String := String.mk (jsTrimList s.data)

/-! ## Token List Controller (ChipInput.tsx)

Each handler of the component reads the current list (the value prop) and
emits the next list through onChange; the embedding returns the next list
directly.  Handlers that also touch the text-input state return the next
inputValue as well. -/

/-- selectAllChips (ChipInput.tsx lines 104-110): set selected on every
chip. -/
def selectAllChips (value : List Chip) : List Chip :=
  value.map fun chip => { chip with selected := true }

/-- clearSelection (ChipInput.tsx lines 115-124): deselect every chip;
short-circuits (no onChange) when nothing is selected. -/
def clearSelection (value : List Chip) : List Chip :=
  if (value.filter fun chip => chip.selected).length = 0 then value
  else value.map fun chip => { chip with selected := false }

/-- toggleChipSelection (ChipInput.tsx lines 129-141): invert the target
chip; outside multi-select mode every other chip is deselected. -/
def toggleChipSelection (value : List Chip) (chipId : String) (multiSelect : Bool) :
    List Chip :=
  value.map fun chip =>
    if chip.id = chipId then { chip with selected := !chip.selected }
    else if multiSelect then chip else { chip with selected := false }

/-- removeChips (ChipInput.tsx lines 146-160): drop every selected chip
when a selection exists, otherwise drop the last chip when the text input
is empty, otherwise leave the list alone (no onChange). -/
def removeChips (value : List Chip) (inputValue : String) : List Chip :=
  let selectedChips := value.filter fun chip => chip.selected
  if selectedChips.length > 0 then
    value.filter fun chip => !chip.selected
  else if value.length > 0 ∧ inputValue = "" then
    value.dropLast
  else
    value

/-- createChipFromInput (ChipInput.tsx lines 165-181): trim the typed
text; when non-empty, ask the injected onAdd factory for a chip.  The
first component is the emitted list (none when onChange is not called),
the second the next inputValue (cleared only on success).  The onAdd
prop is modelled as always supplied, matching every call site exercised
by the contract. -/
def createChipFromInput (value : List Chip) (inputValue : String)
    (onAdd : String → Option Chip) : Option (List Chip) × String :=
  let trimmedValue := jsTrim inputValue
  if trimmedValue = "" then (none, inputValue)
  else
    match onAdd trimmedValue with
    | some newChip =>
        (some ((value.map fun chip => { chip with selected := false }) ++ [newChip]), "")
    | none => (none, inputValue)

/-- handlePaste (ChipInput.tsx lines 241-261): decode through the
injected onPaste callback; on a non-empty result, deselect the existing
chips, append the decoded ones and clear the text input. -/
def handlePaste (value : List Chip) (inputValue : String)
    (onPaste : String → Option (List Chip)) (clipboardData : String) :
    Option (List Chip) × String :=
  match onPaste clipboardData with
  | some newChips =>
      if newChips.length > 0 then
        (some ((value.map fun chip => { chip with selected := false }) ++ newChips), "")
      else (none, inputValue)
  | none => (none, inputValue)

/-- The serialization-relevant projection of a chip: the fields every
controller operation must leave untouched. -/
def chipProj (c : Chip) : String × String × Option String :=
  (c.id, c.label, c.value)


/-! ## Clipboard Codec (ChipClipboardSerializer.ts)

The wire format is MARKER ++ JSON.stringify of
\x7bversion: 1, chips: [\x7bid, label, value?\x7d ...]\x7d.
The printer below is JSON.stringify specialized to exactly that value
shape (keys in insertion order, no added whitespace, standard string
escaping); the parser is a total JSON reader used by the deserializer. -/

/-- The marker constant CLIPBOARD_MARKER of the serializer. -/
def CLIPBOARD_MARKER : String := "__CHIPINPUT__:"

/-- The supported version constant CLIPBOARD_VERSION of the serializer. -/
def CLIPBOARD_VERSION : Int := 1

/-- Lower-case hexadecimal digit character for a value below 16, as
emitted by JSON.stringify inside a u-escape. -/
def hexDigitChar (n : Nat) : Char :=
  if n < 10 then Char.ofNat (48 + n) else Char.ofNat (87 + n)

/-- How JSON.stringify escapes one character of a string literal: quote
and backslash get a two-character escape, the five named control
characters their short forms, remaining control characters a u-escape,
and everything else stands for itself. -/
def jsonEscapeChar (c : Char) : List Char :=
  if c = '"' then ['\\', '"']
  else if c = '\\' then ['\\', '\\']
  else if c = Char.ofNat 8 then ['\\', 'b']
  else if c = '\t' then ['\\', 't']
  else if c = '\n' then ['\\', 'n']
  else if c = Char.ofNat 12 then ['\\', 'f']
  else if c = '\r' then ['\\', 'r']
  else if c.toNat < 32 then
    ['\\', 'u', '0', '0', hexDigitChar (c.toNat / 16), hexDigitChar (c.toNat % 16)]
  else [c]

/-- JSON.stringify escaping over a whole character list. -/
def jsonEscape : List Char → List Char
  | [] => []
  | c :: cs => jsonEscapeChar c ++ jsonEscape cs

/-- A JSON string literal (opening quote, escaped body, closing quote). -/
def jsonStrLit (s : String) : List Char :=
  '"' :: (jsonEscape s.data ++ ['"'])

/-- JSON.stringify of one cleaned chip object \x7bid, label, value?\x7d; the
value key is omitted when chip.value is undefined, mirroring how
JSON.stringify drops undefined-valued keys. -/
def chipLit (c : Chip) : List Char :=
  '{' :: (jsonStrLit "id" ++ ':' :: jsonStrLit c.id ++
    ',' :: jsonStrLit "label" ++ ':' :: jsonStrLit c.label ++
    (match c.value with
     | some v => ',' :: jsonStrLit "value" ++ ':' :: jsonStrLit v
     | none => []) ++ ['}'])

/-- The comma-separated chip array body. -/
def chipsLit : List Chip → List Char
  | [] => []
  | [c] => chipLit c
  | c :: cs => chipLit c ++ ',' :: chipsLit cs

/-- JSON.stringify of the whole SerializedChipData payload. -/
def payloadLit (chips : List Chip) : List Char :=
  "\x7b\"version\":1,\"chips\":[".data ++ chipsLit chips ++ "]\x7d".data

/-- ChipClipboardSerializer.serialize (lines 47-61): marker prefix plus
the stringified payload. -/
def serialize (chips : List Chip) : String :=
  CLIPBOARD_MARKER ++ String.mk (payloadLit chips)

/-- JSON values as produced by JSON.parse, with numbers restricted to
the integers (the only numbers the chip format carries). -/
inductive Json where
  | null : Json
  | bool : Bool → Json
  | num : Int → Json
  | str : String → Json
  | arr : List Json → Json
  | obj : List (String × Json) → Json

/-- JSON document whitespace. -/
def isJsonWs (c : Char) : Bool :=
  c = ' ' || c = '\t' || c = '\n' || c = '\r'

/-- Drop leading JSON whitespace. -/
def skipJsonWs : List Char → List Char
  | [] => []
  | c :: cs => if isJsonWs c then skipJsonWs cs else c :: cs

/-- Numeric value of a hexadecimal digit character, if any. -/
def hexCharVal (c : Char) : Option Nat :=
  if '0' ≤ c ∧ c ≤ '9' then some (c.toNat - 48)
  else if 'a' ≤ c ∧ c ≤ 'f' then some (c.toNat - 87)
  else if 'A' ≤ c ∧ c ≤ 'F' then some (c.toNat - 55)
  else none

/-- The character named by a two-character JSON escape, if valid. -/
def jsonUnescape (c : Char) : Option Char :=
  if c = '"' then some '"'
  else if c = '\\' then some '\\'
  else if c = '/' then some '/'
  else if c = 'b' then some (Char.ofNat 8)
  else if c = 'f' then some (Char.ofNat 12)
  else if c = 'n' then some '\n'
  else if c = 'r' then some '\r'
  else if c = 't' then some '\t'
  else none

/-- Parse the body of a JSON string literal (after the opening quote),
returning the decoded characters and the input after the closing quote.
Surrogate code points in u-escapes are rejected (the printer never
emits them). -/
def parseJsonString : List Char → Option (List Char × List Char)
  | [] => none
  | c :: cs =>
    if c = '"' then some ([], cs)
    else if c = '\\' then
      match cs with
      | [] => none
      | e :: cs₂ =>
        if e = 'u' then
          match cs₂ with
          | h₁ :: h₂ :: h₃ :: h₄ :: cs₃ =>
            match hexCharVal h₁, hexCharVal h₂, hexCharVal h₃, hexCharVal h₄ with
            | some a, some b, some x, some y =>
                let n := ((a * 16 + b) * 16 + x) * 16 + y
                if n < 0xd800 then
                  (parseJsonString cs₃).map fun p => (Char.ofNat n :: p.1, p.2)
                else if 0xdfff < n then
                  (parseJsonString cs₃).map fun p => (Char.ofNat n :: p.1, p.2)
                else none
            | _, _, _, _ => none
          | _ => none
        else
          match jsonUnescape e with
          | some ch => (parseJsonString cs₂).map fun p => (ch :: p.1, p.2)
          | none => none
    else if c.toNat < 32 then none
    else (parseJsonString cs).map fun p => (c :: p.1, p.2)

/-- Decimal digit value of a character, if any. -/
def decDigitVal (c : Char) : Option Nat :=
  if '0' ≤ c ∧ c ≤ '9' then some (c.toNat - 48) else none

/-- Consume a maximal run of decimal digits, folding them onto acc. -/
def parseDecDigits (acc : Nat) : List Char → Nat × List Char
  | [] => (acc, [])
  | c :: cs =>
    match decDigitVal c with
    | some d => parseDecDigits (acc * 10 + d) cs
    | none => (acc, c :: cs)

/-- Parse an integer JSON number (optional minus sign, then digits). -/
def parseJsonNumber : List Char → Option (Json × List Char)
  | [] => none
  | c :: cs =>
    if c = '-' then
      match cs with
      | [] => none
      | d :: cs₂ =>
        (decDigitVal d).map fun v =>
          let p := parseDecDigits v cs₂
          (Json.num (-(p.1 : Int)), p.2)
    else
      (decDigitVal c).map fun v =>
        let p := parseDecDigits v cs
        (Json.num (p.1 : Int), p.2)

mutual

/-- Parse one JSON value; fuel bounds the recursion and is always
supplied with at least the input length plus one, which the round-trip
lemmas show is enough for every payload the serializer emits. -/
def parseJsonValue : Nat → List Char → Option (Json × List Char)
  | 0, _ => none
  | fuel + 1, cs =>
    match skipJsonWs cs with
    | [] => none
    | c :: cs₁ =>
      if c = '{' then parseJsonObj fuel cs₁
      else if c = '[' then parseJsonArr fuel cs₁
      else if c = '"' then
        (parseJsonString cs₁).map fun p => (Json.str (String.mk p.1), p.2)
      else if c = 't' then
        match cs₁ with
        | 'r' :: 'u' :: 'e' :: r => some (Json.bool true, r)
        | _ => none
      else if c = 'f' then
        match cs₁ with
        | 'a' :: 'l' :: 's' :: 'e' :: r => some (Json.bool false, r)
        | _ => none
      else if c = 'n' then
        match cs₁ with
        | 'u' :: 'l' :: 'l' :: r => some (Json.null, r)
        | _ => none
      else parseJsonNumber (c :: cs₁)

/-- Parse an object body (after the opening brace). -/
def parseJsonObj : Nat → List Char → Option (Json × List Char)
  | 0, _ => none
  | fuel + 1, cs =>
    match skipJsonWs cs with
    | [] => none
    | c :: cs₁ =>
      if c = '}' then some (Json.obj [], cs₁)
      else (parseJsonMembers fuel (c :: cs₁)).map fun p => (Json.obj p.1, p.2)

/-- Parse one or more comma-separated key-value members, up to and
including the closing brace. -/
def parseJsonMembers : Nat → List Char → Option (List (String × Json) × List Char)
  | 0, _ => none
  | fuel + 1, cs =>
    match skipJsonWs cs with
    | [] => none
    | c :: cs₁ =>
      if c = '"' then
        match parseJsonString cs₁ with
        | none => none
        | some (key, cs₂) =>
          match skipJsonWs cs₂ with
          | [] => none
          | c₂ :: cs₃ =>
            if c₂ = ':' then
              match parseJsonValue fuel cs₃ with
              | none => none
              | some (v, cs₄) =>
                match skipJsonWs cs₄ with
                | [] => none
                | c₃ :: cs₅ =>
                  if c₃ = ',' then
                    (parseJsonMembers fuel cs₅).map fun p =>
                      ((String.mk key, v) :: p.1, p.2)
                  else if c₃ = '}' then some ([(String.mk key, v)], cs₅)
                  else none
            else none
      else none

/-- Parse an array body (after the opening bracket). -/
def parseJsonArr : Nat → List Char → Option (Json × List Char)
  | 0, _ => none
  | fuel + 1, cs =>
    match skipJsonWs cs with
    | [] => none
    | c :: cs₁ =>
      if c = ']' then some (Json.arr [], cs₁)
      else (parseJsonElems fuel (c :: cs₁)).map fun p => (Json.arr p.1, p.2)

/-- Parse one or more comma-separated array elements, up to and
including the closing bracket. -/
def parseJsonElems : Nat → List Char → Option (List Json × List Char)
  | 0, _ => none
  | fuel + 1, cs =>
    match parseJsonValue fuel cs with
    | none => none
    | some (v, cs₁) =>
      match skipJsonWs cs₁ with
      | [] => none
      | c :: cs₂ =>
        if c = ',' then (parseJsonElems fuel cs₂).map fun p => (v :: p.1, p.2)
        else if c = ']' then some ([v], cs₂)
        else none

end

/-- JSON.parse over a whole document: a value followed by at most
whitespace.  Failure (a thrown SyntaxError in JavaScript) is none. -/
def jsonParse (s : String) : Option Json :=
  match parseJsonValue (s.data.length + 1) s.data with
  | some (v, rest) => if skipJsonWs rest = [] then some v else none
  | none => none

/-- JavaScript falsiness of a JSON.parse result (the !data check of the
deserializer): null, false, zero and the empty string are falsy. -/
def jsFalsy : Json → Bool
  | Json.null => true
  | Json.bool b => !b
  | Json.num n => n == 0
  | Json.str s => s == ""
  | Json.arr _ => false
  | Json.obj _ => false

/-- Property lookup on a parsed object: with duplicate keys the last
occurrence wins, as for a JavaScript object built by JSON.parse. -/
def lookupLastKey : List (String × Json) → String → Option Json
  | [], _ => none
  | kv :: rest, key =>
    match lookupLastKey rest key with
    | some r => some r
    | none => if kv.1 = key then some kv.2 else none

/-- JavaScript property access data[key]: defined members of an object,
undefined (none) on every other JSON value. -/
def getProp : Json → String → Option Json
  | Json.obj kvs, key => lookupLastKey kvs key
  | _, _ => none

/-- Rebuild one pasted chip from its parsed element (the arrow function
inside data.chips.map, lines 112-118): fresh id, label copied, value
defaulting to the label, selection state reset.  An element from which a
string label cannot be read is modelled as a failed decode. -/
def chipOfJson (newId : String) (j : Json) : Option Chip :=
  match j with
  | Json.obj kvs =>
    match lookupLastKey kvs "label" with
    | some (Json.str lbl) =>
        some { id := newId,
               label := lbl,
               value := some (match lookupLastKey kvs "value" with
                              | some (Json.str v) => v
                              | _ => lbl),
               selected := false,
               disabled := false }
    | _ => none
  | _ => none

/-- data.chips.map over the parsed elements, threading the index into
the injected id generator. -/
def chipsOfJson (genId : Nat → String) : Nat → List Json → Option (List Chip)
  | _, [] => some []
  | i, j :: js =>
    match chipOfJson (genId i) j with
    | none => none
    | some c => (chipsOfJson genId (i + 1) js).map fun cs => c :: cs

/-- The three observably distinct failure paths of
deserializeChipInputFormat: the catch block (console.error), the silent
structure validation, and the version check (console.warn). -/
inductive ChipDecodeError where
  | parseFailed : ChipDecodeError
  | invalidStructure : ChipDecodeError
  | unsupportedVersion : ChipDecodeError
deriving DecidableEq

/-- deserializeChipInputFormat (lines 87-123) with its three failure
branches kept distinct: strip the marker, JSON.parse the rest, validate
the shape, check the version, then rebuild the chips with fresh ids. -/
def deserializeChipInputFormatE (genId : Nat → String) (clipboardData : String) :
    Except ChipDecodeError (List Chip) :=
  let jsonString := String.mk (clipboardData.data.drop CLIPBOARD_MARKER.length)
  match jsonParse jsonString with
  | none => Except.error ChipDecodeError.parseFailed
  | some data =>
    if jsFalsy data then Except.error ChipDecodeError.invalidStructure
    else
      match getProp data "version" with
      | some (Json.num v) =>
        match getProp data "chips" with
        | some (Json.arr chipsArr) =>
          if v ≠ CLIPBOARD_VERSION then Except.error ChipDecodeError.unsupportedVersion
          else
            match chipsOfJson genId 0 chipsArr with
            | some cs => Except.ok cs
            | none => Except.error ChipDecodeError.parseFailed
        | _ => Except.error ChipDecodeError.invalidStructure
      | _ => Except.error ChipDecodeError.invalidStructure

/-- deserializeChipInputFormat as the caller sees it: every failure
branch collapses to null. -/
def deserializeChipInputFormat (genId : Nat → String) (clipboardData : String) :
    Option (List Chip) :=
  (deserializeChipInputFormatE genId clipboardData).toOption

/-- JavaScript String.prototype.split on a comma: always at least one
segment, empty segments kept. -/
def splitComma : List Char → List (List Char)
  | [] => [[]]
  | c :: cs =>
    if c = ',' then [] :: splitComma cs
    else
      match splitComma cs with
      | seg :: segs => (c :: seg) :: segs
      | [] => [[c]]

/-- The chips built from the surviving fallback segments, threading the
index into the injected id generator. -/
def chipsOfLabels (genId : Nat → String) : Nat → List (List Char) → List Chip
  | _, [] => []
  | i, l :: ls =>
    { id := genId i, label := String.mk l, value := some (String.mk l),
      selected := false, disabled := false } :: chipsOfLabels genId (i + 1) ls

/-- deserializePlainTextFallback (lines 134-157): split on commas, trim
each segment, drop the empty ones; null when nothing survives. -/
def deserializePlainTextFallback (genId : Nat → String) (clipboardData : String) :
    Option (List Chip) :=
  let labels := ((splitComma clipboardData.data).map jsTrimList).filter
    fun l => l.length > 0
  if labels.length = 0 then none
  else some (chipsOfLabels genId 0 labels)

/-- ChipClipboardSerializer.deserialize (lines 74-82): the marker picks
the structured path, anything else falls back to comma-separated text. -/
def deserialize (genId : Nat → String) (clipboardData : String) : Option (List Chip) :=
  if CLIPBOARD_MARKER.data.isPrefixOf clipboardData.data then
    deserializeChipInputFormat genId clipboardData
  else
    deserializePlainTextFallback genId clipboardData

/-! ## Json images of serialized payloads, and the rebuilt chip lists -/

/-- The Json value a correct reader recovers from one serialized chip. -/
def chipJson (c : Chip) : Json :=
  Json.obj ([("id", Json.str c.id), ("label", Json.str c.label)] ++
    (match c.value with
     | some v => [("value", Json.str v)]
     | none => []))

/-- The Json value a correct reader recovers from a serialized payload. -/
def payloadJson (chips : List Chip) : Json :=
  Json.obj [("version", Json.num 1), ("chips", Json.arr (chips.map chipJson))]

/-- The chip list deserialize rebuilds from a round-tripped payload:
fresh ids from position i onward, values defaulting to labels, selection
cleared. -/
def rebuildChips (genId : Nat → String) : Nat → List Chip → List Chip
  | _, [] => []
  | i, c :: cs =>
    { id := genId i, label := c.label, value := some (c.value.getD c.label),
      selected := false, disabled := false } :: rebuildChips genId (i + 1) cs


/-! ## Round-trip infrastructure

A printed fragment PrintsTo its Json image when the value parser,
given enough fuel, consumes exactly the fragment in front of any
delimiter-headed continuation.  Delimiters are what can legally follow
a value inside the payload (nothing, a comma, or a closing bracket);
the restriction matters only for numbers, which would otherwise absorb
digits of the continuation. -/

/-- Continuations a printed value may be followed by. -/
def delimitedHead : List Char → Prop
  | [] => True
  | c :: _ => c = ',' ∨ c = '}' ∨ c = ']'

/-- lit parses to j, consuming exactly lit, whenever the fuel is at
least need and the continuation is delimiter-headed. -/
def PrintsTo (lit : List Char) (j : Json) (need : Nat) : Prop :=
  ∀ fuel rest, need ≤ fuel → delimitedHead rest →
    parseJsonValue fuel (lit ++ rest) = some (j, rest)

/-- Printed object members: key, printed value, Json image of the value. -/
def membersLit : List (String × List Char × Json) → List Char
  | [] => []
  | [m] => jsonStrLit m.1 ++ ':' :: m.2.1
  | m :: ms => jsonStrLit m.1 ++ ':' :: m.2.1 ++ ',' :: membersLit ms

/-- Printed array elements: printed value and its Json image. -/
def elemsLit : List (List Char × Json) → List Char
  | [] => []
  | [e] => e.1
  | e :: es => e.1 ++ ',' :: elemsLit es

/-- The member descriptions of one serialized chip object. -/
def chipMembers (c : Chip) : List (String × List Char × Json) :=
  ("id", jsonStrLit c.id, Json.str c.id) ::
  ("label", jsonStrLit c.label, Json.str c.label) ::
  (match c.value with
   | some v => [("value", jsonStrLit v, Json.str v)]
   | none => [])

/-! ## Round-trip lemmas: strings -/

theorem stringMk_data (s : String) : String.mk s.data = s := rfl

theorem hexCharVal_hexDigitChar (k : Nat) (hk : k < 16) :
    hexCharVal (hexDigitChar k) = some k := by
  interval_cases k <;> rfl

/-- Parsing one escaped character undoes jsonEscapeChar. -/
theorem parseJsonString_escapeChar (c : Char) (rest : List Char) :
    parseJsonString (jsonEscapeChar c ++ rest) =
      (parseJsonString rest).map fun p => (c :: p.1, p.2) := by
  by_cases h1 : c = '"'
  · subst h1
    rw [show jsonEscapeChar '"' ++ rest = '\\' :: '"' :: rest from rfl,
      parseJsonString.eq_def]
    simp [jsonUnescape]
  by_cases h2 : c = '\\'
  · subst h2
    rw [show jsonEscapeChar '\\' ++ rest = '\\' :: '\\' :: rest from rfl,
      parseJsonString.eq_def]
    simp [jsonUnescape]
  by_cases h3 : c = Char.ofNat 8
  · subst h3
    rw [show jsonEscapeChar (Char.ofNat 8) ++ rest = '\\' :: 'b' :: rest from rfl,
      parseJsonString.eq_def]
    simp [jsonUnescape]
  by_cases h4 : c = '\t'
  · subst h4
    rw [show jsonEscapeChar '\t' ++ rest = '\\' :: 't' :: rest from rfl,
      parseJsonString.eq_def]
    simp [jsonUnescape]
  by_cases h5 : c = '\n'
  · subst h5
    rw [show jsonEscapeChar '\n' ++ rest = '\\' :: 'n' :: rest from rfl,
      parseJsonString.eq_def]
    simp [jsonUnescape]
  by_cases h6 : c = Char.ofNat 12
  · subst h6
    rw [show jsonEscapeChar (Char.ofNat 12) ++ rest = '\\' :: 'f' :: rest from rfl,
      parseJsonString.eq_def]
    simp [jsonUnescape]
  by_cases h7 : c = '\r'
  · subst h7
    rw [show jsonEscapeChar '\r' ++ rest = '\\' :: 'r' :: rest from rfl,
      parseJsonString.eq_def]
    simp [jsonUnescape]
  by_cases h8 : c.toNat < 32
  · have hda : c.toNat / 16 < 16 := by omega
    have hdb : c.toNat % 16 < 16 := by omega
    have hlt : c.toNat < 55296 := by omega
    simp only [jsonEscapeChar, if_neg h1, if_neg h2, if_neg h3, if_neg h4, if_neg h5,
      if_neg h6, if_neg h7, if_pos h8, List.cons_append, List.append_assoc]
    rw [parseJsonString.eq_def]
    simp only []
    norm_num
    rw [hexCharVal_hexDigitChar _ hda, hexCharVal_hexDigitChar _ hdb]
    simp only [show hexCharVal '0' = some 0 from rfl]
    have harith : c.toNat / 16 * 16 + c.toNat % 16 = c.toNat := by omega
    simp only [Nat.zero_mul, Nat.zero_add, Nat.add_mul, harith]
    simp [harith, hlt, Char.ofNat_toNat]
  · simp only [jsonEscapeChar, if_neg h1, if_neg h2, if_neg h3, if_neg h4, if_neg h5,
      if_neg h6, if_neg h7, if_neg h8, List.cons_append, List.nil_append]
    rw [parseJsonString.eq_def]
    simp [h1, h2, h8]

/-- Parsing a printed string body stops exactly at the closing quote. -/
theorem parseJsonString_escape (l rest : List Char) :
    parseJsonString (jsonEscape l ++ '"' :: rest) = some (l, rest) := by
  induction l with
  | nil =>
      rw [show jsonEscape [] ++ '"' :: rest = '"' :: rest from rfl, parseJsonString.eq_def]
      simp
  | cons c l ih =>
      rw [jsonEscape, List.append_assoc, parseJsonString_escapeChar, ih]
      rfl

/-! ## Round-trip lemmas: values, members, elements -/

theorem printsTo_mono {lit : List Char} {j : Json} {n m : Nat} (hnm : n ≤ m)
    (h : PrintsTo lit j n) : PrintsTo lit j m := by
  intro fuel rest hf hd
  exact h fuel rest (by omega) hd

theorem printsTo_strLit (s : String) : PrintsTo (jsonStrLit s) (Json.str s) 1 := by
  intro fuel rest hf hd
  obtain ⟨f, rfl⟩ : ∃ f, fuel = f + 1 := ⟨fuel - 1, by omega⟩
  simp only [jsonStrLit, List.cons_append, List.append_assoc]
  simp only [parseJsonValue]
  simp only [skipJsonWs, isJsonWs]
  simp
  rw [show jsonEscape s.data ++ ('"' :: rest) = jsonEscape s.data ++ '"' :: rest from rfl,
    parseJsonString_escape]
  simp [stringMk_data]

theorem printsTo_numOne : PrintsTo ['1'] (Json.num 1) 1 := by
  intro fuel rest hf hd
  obtain ⟨f, rfl⟩ : ∃ f, fuel = f + 1 := ⟨fuel - 1, by omega⟩
  simp only [List.cons_append, List.nil_append]
  simp only [parseJsonValue]
  simp only [skipJsonWs, isJsonWs]
  simp
  simp only [parseJsonNumber, decDigitVal]
  cases rest with
  | nil => simp [parseDecDigits]
  | cons c r =>
      simp only [delimitedHead] at hd
      rcases hd with h | h | h <;> subst h <;> simp [parseDecDigits, decDigitVal]

theorem parseJsonMembers_printed :
    ∀ (ms : List (String × List Char × Json)) (n : Nat),
      ms ≠ [] →
      (∀ m ∈ ms, PrintsTo m.2.1 m.2.2 n) →
      ∀ fuel rest, ms.length + n ≤ fuel →
        parseJsonMembers fuel (membersLit ms ++ '}' :: rest) =
          some (ms.map fun m => (m.1, m.2.2), rest)
  | [], _, hne, _, _, _, _ => absurd rfl hne
  | [m], n, _, hvals, fuel, rest, hf => by
      have hf1 : 1 + n ≤ fuel := by simpa using hf
      obtain ⟨f, rfl⟩ : ∃ f, fuel = f + 1 := ⟨fuel - 1, by omega⟩
      have hv := hvals m (List.mem_singleton.mpr rfl) f ('}' :: rest)
        (by omega) (Or.inr (Or.inl rfl))
      simp only [membersLit, jsonStrLit, List.cons_append, List.append_assoc,
        List.nil_append]
      simp only [parseJsonMembers]
      simp only [skipJsonWs, isJsonWs]
      simp [parseJsonString_escape, hv, skipJsonWs, isJsonWs, stringMk_data]
  | m :: m₂ :: ms, n, _, hvals, fuel, rest, hf => by
      have hf1 : ms.length + 2 + n ≤ fuel := by simpa using hf
      obtain ⟨f, rfl⟩ : ∃ f, fuel = f + 1 := ⟨fuel - 1, by omega⟩
      have hv := hvals m (by simp) f
        (',' :: (membersLit (m₂ :: ms) ++ '}' :: rest)) (by omega) (Or.inl rfl)
      have ih := parseJsonMembers_printed (m₂ :: ms) n (by simp)
        (fun x hx => hvals x (List.mem_cons_of_mem m hx)) f rest
        (by simp only [List.length_cons]; omega)
      rw [show membersLit (m :: m₂ :: ms) =
        jsonStrLit m.1 ++ ':' :: m.2.1 ++ ',' :: membersLit (m₂ :: ms) from rfl]
      simp only [jsonStrLit, List.cons_append, List.append_assoc, List.nil_append]
      simp only [parseJsonMembers]
      simp only [skipJsonWs, isJsonWs]
      simp [parseJsonString_escape, hv, skipJsonWs, isJsonWs, stringMk_data, ih]

theorem printsTo_obj (ms : List (String × List Char × Json)) (n : Nat)
    (hne : ms ≠ []) (hvals : ∀ m ∈ ms, PrintsTo m.2.1 m.2.2 n) :
    PrintsTo ('{' :: (membersLit ms ++ ['}']))
      (Json.obj (ms.map fun m => (m.1, m.2.2))) (ms.length + n + 2) := by
  intro fuel rest hf hd
  obtain ⟨f, rfl⟩ : ∃ f, fuel = f + 1 := ⟨fuel - 1, by omega⟩
  rw [show ('{' :: (membersLit ms ++ ['}'])) ++ rest =
    '{' :: (membersLit ms ++ '}' :: rest) by simp]
  simp only [parseJsonValue]
  simp only [skipJsonWs, isJsonWs]
  simp
  obtain ⟨f₂, rfl⟩ : ∃ f₂, f = f₂ + 1 := ⟨f - 1, by omega⟩
  simp only [parseJsonObj]
  match ms, hne with
  | m :: ms', _ =>
    obtain ⟨t, ht⟩ : ∃ t, membersLit (m :: ms') = '"' :: t := by
      cases ms' <;> simp [membersLit, jsonStrLit]
    rw [ht]
    simp only [skipJsonWs, isJsonWs, List.cons_append]
    simp
    rw [← List.cons_append, ← ht,
      parseJsonMembers_printed (m :: ms') n (by simp) hvals f₂ rest
        (by simp only [List.length_cons] at hf ⊢; omega)]
    rfl

theorem parseJsonElems_printed :
    ∀ (es : List (List Char × Json)) (n : Nat),
      es ≠ [] →
      (∀ e ∈ es, PrintsTo e.1 e.2 n) →
      ∀ fuel rest, es.length + n ≤ fuel →
        parseJsonElems fuel (elemsLit es ++ ']' :: rest) =
          some (es.map fun e => e.2, rest)
  | [], _, hne, _, _, _, _ => absurd rfl hne
  | [e], n, _, hvals, fuel, rest, hf => by
      have hf1 : 1 + n ≤ fuel := by simpa using hf
      obtain ⟨f, rfl⟩ : ∃ f, fuel = f + 1 := ⟨fuel - 1, by omega⟩
      have hv := hvals e (List.mem_singleton.mpr rfl) f (']' :: rest)
        (by omega) (Or.inr (Or.inr rfl))
      simp only [elemsLit, List.nil_append]
      simp only [parseJsonElems]
      simp [hv, skipJsonWs, isJsonWs]
  | e :: e₂ :: es, n, _, hvals, fuel, rest, hf => by
      have hf1 : es.length + 2 + n ≤ fuel := by simpa using hf
      obtain ⟨f, rfl⟩ : ∃ f, fuel = f + 1 := ⟨fuel - 1, by omega⟩
      have hv := hvals e (by simp) f
        (',' :: (elemsLit (e₂ :: es) ++ ']' :: rest)) (by omega) (Or.inl rfl)
      have ih := parseJsonElems_printed (e₂ :: es) n (by simp)
        (fun x hx => hvals x (List.mem_cons_of_mem e hx)) f rest
        (by simp only [List.length_cons]; omega)
      rw [show elemsLit (e :: e₂ :: es) = e.1 ++ ',' :: elemsLit (e₂ :: es) from rfl]
      simp only [List.cons_append, List.append_assoc]
      simp only [parseJsonElems]
      simp [hv, skipJsonWs, isJsonWs, ih]

theorem printsTo_arrNil : PrintsTo ['[', ']'] (Json.arr []) 2 := by
  intro fuel rest hf hd
  obtain ⟨f, rfl⟩ : ∃ f, fuel = f + 1 := ⟨fuel - 1, by omega⟩
  obtain ⟨f₂, rfl⟩ : ∃ f₂, f = f₂ + 1 := ⟨f - 1, by omega⟩
  simp only [List.cons_append, List.nil_append]
  simp only [parseJsonValue]
  simp only [skipJsonWs, isJsonWs]
  simp
  simp only [parseJsonArr]
  simp [skipJsonWs, isJsonWs]

theorem printsTo_arr (es : List (List Char × Json)) (n : Nat)
    (hne : es ≠ []) (hobjs : ∀ e ∈ es, ∃ t, e.1 = '{' :: t)
    (hvals : ∀ e ∈ es, PrintsTo e.1 e.2 n) :
    PrintsTo ('[' :: (elemsLit es ++ [']'])) (Json.arr (es.map fun e => e.2))
      (es.length + n + 2) := by
  intro fuel rest hf hd
  obtain ⟨f, rfl⟩ : ∃ f, fuel = f + 1 := ⟨fuel - 1, by omega⟩
  rw [show ('[' :: (elemsLit es ++ [']'])) ++ rest =
    '[' :: (elemsLit es ++ ']' :: rest) by simp]
  simp only [parseJsonValue]
  simp only [skipJsonWs, isJsonWs]
  simp
  obtain ⟨f₂, rfl⟩ : ∃ f₂, f = f₂ + 1 := ⟨f - 1, by omega⟩
  simp only [parseJsonArr]
  match es, hne with
  | e :: es', _ =>
    obtain ⟨t, ht⟩ : ∃ t, elemsLit (e :: es') = '{' :: t := by
      obtain ⟨t₀, ht₀⟩ := hobjs e (by simp)
      cases es' <;> simp [elemsLit, ht₀]
    rw [ht]
    simp only [skipJsonWs, isJsonWs, List.cons_append]
    simp
    rw [← List.cons_append, ← ht,
      parseJsonElems_printed (e :: es') n (by simp) hvals f₂ rest
        (by simp only [List.length_cons] at hf ⊢; omega)]
    rfl

theorem chipLit_eq_membersLit (c : Chip) :
    chipLit c = '{' :: (membersLit (chipMembers c) ++ ['}']) := by
  rcases c with ⟨i, l, v, s, d⟩
  cases v <;> simp [chipLit, chipMembers, membersLit, List.append_assoc]

theorem chipJson_eq_membersMap (c : Chip) :
    chipJson c = Json.obj ((chipMembers c).map fun m => (m.1, m.2.2)) := by
  rcases c with ⟨i, l, v, s, d⟩
  cases v <;> simp [chipJson, chipMembers]

theorem printsTo_chipLit (c : Chip) : PrintsTo (chipLit c) (chipJson c) 6 := by
  have hmem : ∀ m ∈ chipMembers c, PrintsTo m.2.1 m.2.2 1 := by
    intro m hm
    rcases c with ⟨i, l, v, s, d⟩
    cases v <;> simp [chipMembers] at hm <;>
      rcases hm with rfl | rfl | rfl <;> exact printsTo_strLit _
  have hlen : (chipMembers c).length ≤ 3 := by
    rcases c with ⟨i, l, v, s, d⟩
    cases v <;> simp [chipMembers]
  have hobj := printsTo_obj (chipMembers c) 1 (by
      rcases c with ⟨i, l, v, s, d⟩
      cases v <;> simp [chipMembers]) hmem
  rw [chipLit_eq_membersLit, chipJson_eq_membersMap]
  exact printsTo_mono (by omega) hobj

theorem chipsLit_eq_elemsLit (T : List Chip) :
    chipsLit T = elemsLit (T.map fun c => (chipLit c, chipJson c)) := by
  induction T with
  | nil => rfl
  | cons c ts ih =>
      cases ts with
      | nil => rfl
      | cons c₂ ts₂ => simp [chipsLit, elemsLit, ih]

theorem payloadLit_eq_membersLit (T : List Chip) :
    payloadLit T =
      '{' :: (membersLit
        [("version", ['1'], Json.num 1),
         ("chips", '[' :: (chipsLit T ++ [']']),
          Json.arr (T.map chipJson))] ++ ['}']) := by
  simp [payloadLit, membersLit, jsonStrLit, jsonEscape, jsonEscapeChar,
    List.append_assoc]

theorem printsTo_payload (T : List Chip) :
    PrintsTo (payloadLit T) (payloadJson T) (T.length + 12) := by
  have hchips :
      PrintsTo ('[' :: (chipsLit T ++ [']'])) (Json.arr (T.map chipJson))
        (T.length + 8) := by
    cases T with
    | nil =>
        have := printsTo_arrNil
        simp only [chipsLit, List.nil_append, List.map_nil]
        exact printsTo_mono (by omega) this
    | cons c ts =>
        have harr := printsTo_arr ((c :: ts).map fun x => (chipLit x, chipJson x)) 6
          (by simp)
          (by
            intro e he
            simp only [List.mem_map] at he
            obtain ⟨x, _, rfl⟩ := he
            exact ⟨_, by rw [chipLit_eq_membersLit]⟩)
          (by
            intro e he
            simp only [List.mem_map] at he
            obtain ⟨x, _, rfl⟩ := he
            exact printsTo_chipLit x)
        rw [chipsLit_eq_elemsLit]
        have hjson : (((c :: ts).map fun x => (chipLit x, chipJson x)).map fun e => e.2) =
            (c :: ts).map chipJson := by simp
        rw [← hjson]
        have hlen : ((c :: ts).map fun x => (chipLit x, chipJson x)).length + 6 + 2 ≤
            (c :: ts).length + 8 := by simp
        exact printsTo_mono hlen harr
  have hobj := printsTo_obj
    [("version", ['1'], Json.num 1),
     ("chips", '[' :: (chipsLit T ++ [']']), Json.arr (T.map chipJson))]
    (T.length + 8)
    (by simp)
    (by
      intro m hm
      simp only [List.mem_cons, List.mem_singleton] at hm
      rcases hm with rfl | rfl | hm
      · exact printsTo_mono (by omega) printsTo_numOne
      · exact hchips
      · simp at hm)
  rw [payloadLit_eq_membersLit]
  have : payloadJson T =
      Json.obj
        (([("version", ['1'], Json.num 1),
           ("chips", '[' :: (chipsLit T ++ [']']),
            Json.arr (T.map chipJson))]).map fun m => (m.1, m.2.2)) := by
    simp [payloadJson]
  rw [this]
  exact printsTo_mono (by simp only [List.length_cons, List.length_nil]; omega) hobj

theorem length_chipsLit (T : List Chip) : T.length ≤ (chipsLit T).length := by
  induction T with
  | nil => simp [chipsLit]
  | cons c ts ih =>
      cases ts with
      | nil => simp [chipsLit, chipLit]
      | cons c₂ ts₂ =>
          rw [show chipsLit (c :: c₂ :: ts₂) =
            chipLit c ++ ',' :: chipsLit (c₂ :: ts₂) from rfl]
          simp only [List.length_append, List.length_cons] at ih ⊢
          have : 1 ≤ (chipLit c).length := by simp [chipLit]
          omega

/-- The parse of a printed payload recovers its Json image. -/
theorem jsonParse_payload (T : List Chip) :
    jsonParse (String.mk (payloadLit T)) = some (payloadJson T) := by
  have hlen : T.length + 12 ≤ (payloadLit T).length + 1 := by
    have h1 := length_chipsLit T
    have h2 : (payloadLit T).length = 22 + ((chipsLit T).length + 2) := by
      rw [payloadLit, List.length_append, List.length_append]
      rw [show ("\x7b\"version\":1,\"chips\":[").data.length = 22 from rfl,
        show ("]\x7d").data.length = 2 from rfl]
      omega
    omega
  have hmain := printsTo_payload T ((payloadLit T).length + 1) [] hlen trivial
  rw [List.append_nil] at hmain
  rw [jsonParse]
  rw [show (String.mk (payloadLit T)).data = payloadLit T from rfl]
  rw [hmain]
  rfl

/-! ## Deserializer round-trip -/

theorem chipsOfJson_chipJson (genId : Nat → String) :
    ∀ (T : List Chip) (i : Nat),
      chipsOfJson genId i (T.map chipJson) = some (rebuildChips genId i T)
  | [], _ => rfl
  | c :: ts, i => by
      have hone : chipOfJson (genId i) (chipJson c) =
          some { id := genId i, label := c.label,
                 value := some (c.value.getD c.label),
                 selected := false, disabled := false } := by
        rcases c with ⟨ci, cl, cv, cs, cd⟩
        cases cv <;> simp [chipOfJson, chipJson, lookupLastKey]
      rw [List.map_cons, chipsOfJson, hone, chipsOfJson_chipJson genId ts (i + 1)]
      rfl

theorem isPrefixOf_append_self : ∀ (l t : List Char), l.isPrefixOf (l ++ t) = true
  | [], _ => by simp [List.isPrefixOf]
  | c :: cs, t => by simp [List.isPrefixOf, isPrefixOf_append_self cs t]

theorem serialize_data (T : List Chip) :
    (serialize T).data = CLIPBOARD_MARKER.data ++ payloadLit T := by
  rw [serialize, String.data_append]

/-- Decoding an encoded chip list always succeeds and yields the rebuilt
list: labels kept, values defaulted from labels where absent, fresh ids,
selection cleared. -/
theorem deserialize_serialize (genId : Nat → String) (T : List Chip) :
    deserialize genId (serialize T) = some (rebuildChips genId 0 T) := by
  have hpre : CLIPBOARD_MARKER.data.isPrefixOf (serialize T).data = true := by
    rw [serialize_data]
    exact isPrefixOf_append_self _ _
  have hdrop : (serialize T).data.drop CLIPBOARD_MARKER.length = payloadLit T := by
    rw [serialize_data,
      show CLIPBOARD_MARKER.length = CLIPBOARD_MARKER.data.length from rfl,
      List.drop_left]
  rw [deserialize, if_pos hpre, deserializeChipInputFormat, deserializeChipInputFormatE]
  simp only [hdrop, stringMk_data, jsonParse_payload]
  simp only [payloadJson, jsFalsy, getProp, lookupLastKey]
  simp only [show (("chips" : String) = "version") = False by simp, if_false,
    show (("version" : String) = "version") = True by simp, if_true,
    show (("chips" : String) = "chips") = True by simp]
  simp [chipsOfJson_chipJson genId T 0, CLIPBOARD_VERSION, Except.toOption]

theorem rebuildChips_length (genId : Nat → String) :
    ∀ (T : List Chip) (i : Nat), (rebuildChips genId i T).length = T.length
  | [], _ => rfl
  | _ :: ts, i => by
      simp [rebuildChips, rebuildChips_length genId ts (i + 1)]

theorem rebuildChips_label (genId : Nat → String) :
    ∀ (T : List Chip) (i : Nat),
      (rebuildChips genId i T).map (fun c => c.label) = T.map fun c => c.label
  | [], _ => rfl
  | _ :: ts, i => by
      simp [rebuildChips, rebuildChips_label genId ts (i + 1)]

theorem rebuildChips_value (genId : Nat → String) :
    ∀ (T : List Chip) (i : Nat), (∀ c ∈ T, c.value ≠ none) →
      (rebuildChips genId i T).map (fun c => c.value) = T.map fun c => c.value
  | [], _, _ => rfl
  | c :: ts, i, hval => by
      have hv := hval c (by simp)
      obtain ⟨v, hv⟩ : ∃ v, c.value = some v := by
        cases hcv : c.value
        · exact absurd hcv hv
        · exact ⟨_, rfl⟩
      simp [rebuildChips, rebuildChips_value genId ts (i + 1)
        (fun x hx => hval x (List.mem_cons_of_mem c hx)), hv]

theorem rebuildChips_getElem (genId : Nat → String) :
    ∀ (T : List Chip) (i k : Nat),
      (rebuildChips genId i T)[k]? =
        (T[k]?).map fun c =>
          ⟨genId (i + k), c.label, some (c.value.getD c.label), false, false⟩
  | [], _, _ => by simp [rebuildChips]
  | c :: ts, i, 0 => by simp [rebuildChips]
  | c :: ts, i, k + 1 => by
      have ih := rebuildChips_getElem genId ts (i + 1) k
      simp only [rebuildChips, List.getElem?_cons_succ, ih]
      have : i + 1 + k = i + (k + 1) := by omega
      rw [this]

theorem rebuildChips_selected (genId : Nat → String) :
    ∀ (T : List Chip) (i : Nat), ∀ c ∈ rebuildChips genId i T, c.selected = false
  | [], _, c, hc => by simp [rebuildChips] at hc
  | x :: ts, i, c, hc => by
      rw [rebuildChips] at hc
      rcases List.mem_cons.mp hc with rfl | hc
      · rfl
      · exact rebuildChips_selected genId ts (i + 1) c hc

/-! ## Injectivity of the encoder on serialized fields -/

theorem chipJson_inj_proj (c c₂ : Chip) (h : chipJson c = chipJson c₂) :
    chipProj c = chipProj c₂ := by
  rcases c with ⟨ci, cl, cv, cs, cd⟩
  rcases c₂ with ⟨di, dl, dv, ds, dd⟩
  cases cv <;> cases dv <;>
    simp only [chipJson, chipProj] at h ⊢ <;>
    simp_all [List.cons.injEq, Prod.mk.injEq, Json.str.injEq]

theorem map_chipJson_inj :
    ∀ (T T₂ : List Chip), T.map chipJson = T₂.map chipJson →
      T.map chipProj = T₂.map chipProj
  | [], [], _ => rfl
  | [], _ :: _, h => by simp at h
  | _ :: _, [], h => by simp at h
  | c :: ts, c₂ :: ts₂, h => by
      simp only [List.map_cons, List.cons.injEq] at h ⊢
      exact ⟨chipJson_inj_proj c c₂ h.1, map_chipJson_inj ts ts₂ h.2⟩

/-- Two encodings agree only when the serialized field sequences agree:
the encoder is injective up to the dropped selection state. -/
theorem serialize_inj_proj (T T₂ : List Chip) (h : serialize T = serialize T₂) :
    T.map chipProj = T₂.map chipProj := by
  have hdata := congrArg String.data h
  rw [serialize_data, serialize_data] at hdata
  have hpl : payloadLit T = payloadLit T₂ := List.append_cancel_left hdata
  have hparse : some (payloadJson T) = some (payloadJson T₂) := by
    rw [← jsonParse_payload, ← jsonParse_payload, hpl]
  have hjson := Option.some.inj hparse
  simp only [payloadJson, Json.obj.injEq, List.cons.injEq, Prod.mk.injEq,
    Json.arr.injEq, and_true, true_and] at hjson
  exact map_chipJson_inj T T₂ hjson

/-! ## Controller helper lemmas -/

theorem map_chipProj_deselect (L : List Chip) :
    (L.map fun chip => { chip with selected := false }).map chipProj =
      L.map chipProj := by
  rw [List.map_map]
  exact List.map_congr_left fun c _ => rfl

theorem mem_zip_map_self {α β : Type} (f : α → β) :
    ∀ (l : List α) (c : α), c ∈ l → (f c, c) ∈ (l.map f).zip l
  | _ :: ts, c, h => by
      rcases List.mem_cons.mp h with rfl | h
      · simp
      · simpa using Or.inr (mem_zip_map_self f ts c h)

/-! ## Claim theorems -/

/-- C1: for every token list in which id, label and value are all
present, decoding the encoding succeeds and yields a list of the same
length with the same label and value sequences in order, every id
changed (given that the injected id generator avoids the input ids, as
crypto.randomUUID is relied on to do), and every selected flag false. -/
theorem roundtrip_decode_encode (T : List Chip) (genId : Nat → String)
    (hval : ∀ c ∈ T, c.value ≠ none)
    (hfresh : ∀ k (hk : k < T.length), genId k ≠ (T.get ⟨k, hk⟩).id) :
    ∃ T₂, deserialize genId (serialize T) = some T₂ ∧
      T₂.length = T.length ∧
      T₂.map (fun c => c.label) = T.map (fun c => c.label) ∧
      T₂.map (fun c => c.value) = T.map (fun c => c.value) ∧
      (∀ k (hk : k < T.length) (hk₂ : k < T₂.length),
        (T₂.get ⟨k, hk₂⟩).id ≠ (T.get ⟨k, hk⟩).id) ∧
      (∀ c ∈ T₂, c.selected = false) := by
  refine ⟨rebuildChips genId 0 T, deserialize_serialize genId T,
    rebuildChips_length genId T 0, rebuildChips_label genId T 0,
    rebuildChips_value genId T 0 hval, ?_, rebuildChips_selected genId T 0⟩
  intro k hk hk₂
  have hg := rebuildChips_getElem genId T 0 k
  rw [List.getElem?_eq_getElem hk₂, List.getElem?_eq_getElem hk] at hg
  simp only [Option.map_some'] at hg
  have hid := congrArg Chip.id (Option.some.inj hg)
  simp only [List.get_eq_getElem]
  rw [hid]
  simpa using hfresh k hk

/-- C1 witness at a concrete one-chip list and a generator avoiding the
input id. -/
theorem roundtrip_decode_encode_witness :
    ∃ T₂,
      deserialize (fun i => "u" ++ toString i)
          (serialize [⟨"1", "React", some "React", false, false⟩]) = some T₂ ∧
      T₂.length = ([⟨"1", "React", some "React", false, false⟩] : List Chip).length ∧
      T₂.map (fun c => c.label) =
        ([⟨"1", "React", some "React", false, false⟩] : List Chip).map (fun c => c.label) ∧
      T₂.map (fun c => c.value) =
        ([⟨"1", "React", some "React", false, false⟩] : List Chip).map (fun c => c.value) ∧
      (∀ k (hk : k < ([⟨"1", "React", some "React", false, false⟩] : List Chip).length)
        (hk₂ : k < T₂.length),
        (T₂.get ⟨k, hk₂⟩).id ≠
          (([⟨"1", "React", some "React", false, false⟩] : List Chip).get ⟨k, hk⟩).id) ∧
      (∀ c ∈ T₂, c.selected = false) :=
  roundtrip_decode_encode [⟨"1", "React", some "React", false, false⟩]
    (fun i => "u" ++ toString i) (by decide) (by decide)

/-- C2 counterexample: a palindromic list with two distinct tokens
equals its own reverse, so its encoding cannot differ from the encoding
of its reverse; the claimed inequality fails. -/
theorem encode_reverse_counterexample :
    (⟨"1", "A", some "A", false, false⟩ : Chip) ≠
      (⟨"2", "B", some "B", false, false⟩ : Chip) ∧
    serialize
        [⟨"1", "A", some "A", false, false⟩, ⟨"2", "B", some "B", false, false⟩,
         ⟨"1", "A", some "A", false, false⟩] =
      serialize
        ([⟨"1", "A", some "A", false, false⟩, ⟨"2", "B", some "B", false, false⟩,
          ⟨"1", "A", some "A", false, false⟩].reverse) :=
  ⟨by decide, rfl⟩

/-- C2 amended: the encoder is deterministic, and encoding differs from
the encoding of the reverse whenever reversal actually changes the
sequence of serialized fields (id, label, value). -/
theorem encode_deterministic_and_order_sensitive (T : List Chip) :
    serialize T = serialize T ∧
    (T.map chipProj ≠ T.reverse.map chipProj →
      serialize T ≠ serialize T.reverse) :=
  ⟨rfl, fun hne heq => hne (serialize_inj_proj T T.reverse heq)⟩

/-- C2 witness: a two-chip list whose reversal changes the serialized
field sequence has a different encoding from its reverse. -/
theorem encode_order_sensitive_witness :
    serialize [⟨"1", "A", some "A", false, false⟩, ⟨"2", "B", some "B", false, false⟩] ≠
      serialize ([⟨"1", "A", some "A", false, false⟩,
        ⟨"2", "B", some "B", false, false⟩].reverse) :=
  (encode_deterministic_and_order_sensitive
    [⟨"1", "A", some "A", false, false⟩, ⟨"2", "B", some "B", false, false⟩]).2
    (by decide)

/-- C3 counterexample: toggling an already-selected chip in
single-select mode leaves zero selected tokens, not exactly one, even
though the target id is present in the list. -/
theorem toggle_single_counterexample :
    ("1" ∈ ([⟨"1", "A", some "A", true, false⟩] : List Chip).map fun c => c.id) ∧
    ¬ (((toggleChipSelection [⟨"1", "A", some "A", true, false⟩] "1" false).filter
        fun c => c.selected).length = 1) := by
  decide

/-- C3 amended: single-select toggling preserves length and every
field except selected; the target position gets its selected flag
inverted and every other token is deselected.  With the target id
present, some zipped position carries the target. -/
theorem toggle_single_select_amended (L : List Chip) (t : String)
    (ht : t ∈ L.map fun c => c.id) :
    (toggleChipSelection L t false).length = L.length ∧
    (∀ p ∈ (toggleChipSelection L t false).zip L,
      p.1.id = p.2.id ∧ p.1.label = p.2.label ∧ p.1.value = p.2.value ∧
      p.1.selected = (if p.2.id = t then !p.2.selected else false)) ∧
    (∃ p ∈ (toggleChipSelection L t false).zip L, p.2.id = t) := by
  refine ⟨by simp [toggleChipSelection], ?_, ?_⟩
  · clear ht
    induction L with
    | nil => simp [toggleChipSelection]
    | cons c cs ih =>
        intro p hp
        rw [show toggleChipSelection (c :: cs) t false =
          (if c.id = t then { c with selected := !c.selected }
           else { c with selected := false }) :: toggleChipSelection cs t false by
            simp [toggleChipSelection]] at hp
        rcases List.mem_cons.mp hp with rfl | hp
        · by_cases hc : c.id = t <;> simp [hc]
        · exact ih p hp
  · obtain ⟨c, hcL, hcid⟩ := List.mem_map.mp ht
    refine ⟨((fun chip =>
      if chip.id = t then { chip with selected := !chip.selected }
      else if false = true then chip else { chip with selected := false }) c, c),
      ?_, hcid⟩
    exact mem_zip_map_self _ L c hcL

/-- C3 amended witness: concrete singleton instance (length part). -/
theorem toggle_single_select_amended_witness :
    (toggleChipSelection [⟨"1", "A", some "A", true, false⟩] "1" false).length =
      ([⟨"1", "A", some "A", true, false⟩] : List Chip).length :=
  (toggle_single_select_amended [⟨"1", "A", some "A", true, false⟩] "1" (by decide)).1

/-- C4: removal follows the three-way case analysis of the source:
selected chips are filtered out when any exists (whatever the input
text), otherwise the last chip goes when the input text is empty,
otherwise nothing changes; and the result is always a subsequence of
the input, so order is preserved. -/
theorem removeChips_case_analysis (L : List Chip) (inputValue : String) :
    removeChips L inputValue =
      (if ∃ c ∈ L, c.selected = true then L.filter fun c => !c.selected
       else if L ≠ [] ∧ inputValue = "" then L.dropLast
       else L) ∧
    (removeChips L inputValue).Sublist L := by
  have hsel : ((L.filter fun c => c.selected).length > 0) ↔ ∃ c ∈ L, c.selected = true := by
    simp [List.length_pos_iff_exists_mem, List.mem_filter]
  have hmain : removeChips L inputValue =
      (if ∃ c ∈ L, c.selected = true then L.filter fun c => !c.selected
       else if L ≠ [] ∧ inputValue = "" then L.dropLast
       else L) := by
    rw [removeChips]
    by_cases h : ∃ c ∈ L, c.selected = true
    · rw [if_pos (hsel.mpr h), if_pos h]
    · rw [if_neg (fun hh => h (hsel.mp hh)), if_neg h]
      by_cases h₂ : L.length > 0 ∧ inputValue = ""
      · rw [if_pos h₂, if_pos ⟨List.length_pos.mp h₂.1, h₂.2⟩]
      · rw [if_neg h₂, if_neg (fun hh => h₂ ⟨List.length_pos.mpr hh.1, hh.2⟩)]
  refine ⟨hmain, ?_⟩
  rw [hmain]
  by_cases h : ∃ c ∈ L, c.selected = true
  · rw [if_pos h]; exact List.filter_sublist L
  · rw [if_neg h]
    by_cases h₂ : L ≠ [] ∧ inputValue = ""
    · rw [if_pos h₂]; exact List.dropLast_sublist L
    · rw [if_neg h₂]

/-- C5: every controller operation preserves id, label and value of the
surviving tokens; selection-only operations keep membership intact,
removal only shrinks the list as a subsequence, creation and paste only
append at the end. -/
theorem controller_frame (L LC LP : List Chip) (iv t clip : String) (m : Bool)
    (onAdd : String → Option Chip) (onPaste : String → Option (List Chip))
    (hC : (createChipFromInput L iv onAdd).1 = some LC)
    (hP : (handlePaste L iv onPaste clip).1 = some LP) :
    (selectAllChips L).map chipProj = L.map chipProj ∧
    (clearSelection L).map chipProj = L.map chipProj ∧
    (toggleChipSelection L t m).map chipProj = L.map chipProj ∧
    ((removeChips L iv).map chipProj).Sublist (L.map chipProj) ∧
    (∃ c, LC.map chipProj = L.map chipProj ++ [chipProj c]) ∧
    (∃ added : List Chip, LP.map chipProj = L.map chipProj ++ added.map chipProj) := by
  refine ⟨?_, ?_, ?_, ?_, ?_, ?_⟩
  · rw [selectAllChips, List.map_map]
    exact List.map_congr_left fun c _ => rfl
  · rw [clearSelection]
    by_cases h : (L.filter fun chip => chip.selected).length = 0
    · rw [if_pos h]
    · rw [if_neg h, List.map_map]
      exact List.map_congr_left fun c _ => rfl
  · rw [toggleChipSelection, List.map_map]
    refine List.map_congr_left fun c _ => ?_
    by_cases hc : c.id = t <;> by_cases hm : m <;> simp [hc, hm, chipProj]
  · have hsub : (removeChips L iv).Sublist L := by
      rw [removeChips]
      by_cases h : (L.filter fun chip => chip.selected).length > 0
      · rw [if_pos h]; exact List.filter_sublist L
      · rw [if_neg h]
        by_cases h₂ : L.length > 0 ∧ iv = ""
        · rw [if_pos h₂]; exact List.dropLast_sublist L
        · rw [if_neg h₂]
    exact hsub.map chipProj
  · rw [createChipFromInput] at hC
    by_cases h : jsTrim iv = ""
    · rw [if_pos h] at hC
      exact absurd hC (by simp)
    · rw [if_neg h] at hC
      cases hAdd : onAdd (jsTrim iv) with
      | none => rw [hAdd] at hC; exact absurd hC (by simp)
      | some newChip =>
          rw [hAdd] at hC
          have hLC := Option.some.inj hC
          refine ⟨newChip, ?_⟩
          rw [← hLC, List.map_append, map_chipProj_deselect]
          rfl
  · rw [handlePaste] at hP
    cases hPaste : onPaste clip with
    | none => rw [hPaste] at hP; exact absurd hP (by simp)
    | some newChips =>
        rw [hPaste] at hP
        have hP₂ : (if newChips.length > 0 then
            (some ((L.map fun chip => { chip with selected := false }) ++ newChips), "")
          else (none, iv)).1 = some LP := hP
        by_cases hlen : newChips.length > 0
        · rw [if_pos hlen] at hP₂
          have hLP := Option.some.inj hP₂
          refine ⟨newChips, ?_⟩
          rw [← hLP, List.map_append, map_chipProj_deselect]
        · rw [if_neg hlen] at hP₂
          exact absurd hP₂ (by simp)

/-- C5 witness: concrete instance in which creation appends exactly one
projected token at the end. -/
theorem controller_frame_witness :
    ∃ c, ([⟨"1", "A", some "A", false, false⟩,
          ⟨"9", "x", some "x", false, false⟩] : List Chip).map chipProj =
      ([⟨"1", "A", some "A", true, false⟩] : List Chip).map chipProj ++ [chipProj c] :=
  (controller_frame [⟨"1", "A", some "A", true, false⟩]
    [⟨"1", "A", some "A", false, false⟩, ⟨"9", "x", some "x", false, false⟩]
    [⟨"1", "A", some "A", false, false⟩, ⟨"7", "P", some "P", false, false⟩]
    "x" "t" "" false
    (fun s => some ⟨"9", s, some s, false, false⟩)
    (fun _ => some [⟨"7", "P", some "P", false, false⟩]) rfl rfl).2.2.2.2.1

/-- C6: when the trimmed text is non-empty and the injected factory
rejects it, createChipFromInput emits no list change (null) and keeps
the typed text untouched for correction. -/
theorem createFromText_rejected (L : List Chip) (raw : String)
    (onAdd : String → Option Chip)
    (hne : jsTrim raw ≠ "") (hrej : onAdd (jsTrim raw) = none) :
    createChipFromInput L raw onAdd = (none, raw) := by
  rw [createChipFromInput, if_neg hne, hrej]

/-- C6 witness: a concrete rejected creation. -/
theorem createFromText_rejected_witness :
    createChipFromInput [] "x" (fun _ => none) = (none, "x") :=
  createFromText_rejected [] "x" (fun _ => none) (by decide) rfl

/-- C7: decoding is total: for every input string the result is either
the failure value or a chip list; the embedding returns and never
raises, for the structured path and the fallback path alike. -/
theorem deserialize_total (genId : Nat → String) (s : String) :
    deserialize genId s = none ∨ ∃ chips, deserialize genId s = some chips := by
  cases h : deserialize genId s
  · exact Or.inl rfl
  · exact Or.inr ⟨_, rfl⟩

/-- C8: every marker-prefixed input whose remainder parses as a
well-formed payload of the expected shape (truthy top value, numeric
version, chips array) with version different from 1 fails as the
distinct unsupported-version branch (the console.warn path of the
source) — a different condition from the malformed-payload branches —
while the caller-facing result is the common failure value null; in
particular so for the concrete version-999 payload. -/
theorem decode_version_mismatch (genId : Nat → String) :
    (∀ (s : String) (data : Json) (v : Int) (chipsArr : List Json),
      CLIPBOARD_MARKER.data.isPrefixOf s.data = true →
      jsonParse (String.mk (s.data.drop CLIPBOARD_MARKER.length)) = some data →
      jsFalsy data = false →
      getProp data "version" = some (Json.num v) →
      getProp data "chips" = some (Json.arr chipsArr) →
      v ≠ CLIPBOARD_VERSION →
      deserializeChipInputFormatE genId s =
          Except.error ChipDecodeError.unsupportedVersion ∧
        deserialize genId s = none) ∧
    deserializeChipInputFormatE genId
        "__CHIPINPUT__:\x7b\"version\":999,\"chips\":[]\x7d" =
      Except.error ChipDecodeError.unsupportedVersion ∧
    deserialize genId "__CHIPINPUT__:\x7b\"version\":999,\"chips\":[]\x7d" = none ∧
    deserializeChipInputFormatE genId "__CHIPINPUT__:not json" =
      Except.error ChipDecodeError.parseFailed ∧
    deserializeChipInputFormatE genId
        "__CHIPINPUT__:\x7b\"version\":1,\"chips\":\"not-an-array\"\x7d" =
      Except.error ChipDecodeError.invalidStructure ∧
    ChipDecodeError.unsupportedVersion ≠ ChipDecodeError.parseFailed ∧
    ChipDecodeError.unsupportedVersion ≠ ChipDecodeError.invalidStructure := by
  refine ⟨?_, rfl, rfl, rfl, rfl, by decide, by decide⟩
  intro s data v chipsArr hpre hparse hfal hver hchips hv
  have hE : deserializeChipInputFormatE genId s =
      Except.error ChipDecodeError.unsupportedVersion := by
    rw [deserializeChipInputFormatE]
    simp only [hparse, hfal, hver, hchips, Bool.false_eq_true, if_false, if_pos hv]
  refine ⟨hE, ?_⟩
  rw [deserialize, if_pos hpre, deserializeChipInputFormat, hE]
  rfl

/-- C8 witness: the universal clause applied at the concrete version-999
payload, its parsed Json value, and its version and chips array. -/
theorem decode_version_mismatch_witness :
    deserializeChipInputFormatE (fun i => toString i)
        "__CHIPINPUT__:\x7b\"version\":999,\"chips\":[]\x7d" =
      Except.error ChipDecodeError.unsupportedVersion ∧
    deserialize (fun i => toString i)
        "__CHIPINPUT__:\x7b\"version\":999,\"chips\":[]\x7d" = none :=
  (decode_version_mismatch (fun i => toString i)).1
    "__CHIPINPUT__:\x7b\"version\":999,\"chips\":[]\x7d"
    (Json.obj [("version", Json.num 999), ("chips", Json.arr [])]) 999 []
    rfl rfl rfl rfl rfl (by decide)

/-- C9: without the marker the decoder splits on commas, trims, drops
empty segments; nothing usable means failure (so the empty string and a
string of commas fail), otherwise one chip per segment in order with
label and value equal to the segment. -/
theorem decode_plain_text_fallback (genId : Nat → String) (s : String) :
    (¬ (CLIPBOARD_MARKER.data.isPrefixOf s.data = true) →
      ((((splitComma s.data).map jsTrimList).filter fun l => l.length > 0) = [] →
        deserialize genId s = none) ∧
      ((((splitComma s.data).map jsTrimList).filter fun l => l.length > 0) ≠ [] →
        deserialize genId s =
          some (chipsOfLabels genId 0
            (((splitComma s.data).map jsTrimList).filter fun l => l.length > 0)))) ∧
    deserialize genId "" = none ∧
    deserialize genId ",,,," = none ∧
    deserialize genId "React, TypeScript, Vite" =
      some [⟨genId 0, "React", some "React", false, false⟩,
            ⟨genId 1, "TypeScript", some "TypeScript", false, false⟩,
            ⟨genId 2, "Vite", some "Vite", false, false⟩] := by
  refine ⟨fun hpre => ⟨fun hnil => ?_, fun hne => ?_⟩, rfl, rfl, rfl⟩
  · rw [deserialize, if_neg hpre, deserializePlainTextFallback]
    rw [hnil]
    rfl
  · rw [deserialize, if_neg hpre, deserializePlainTextFallback]
    rw [if_neg (by simpa [List.length_eq_zero] using hne)]

/-- C9 witness: one usable segment yields one chip. -/
theorem decode_plain_text_fallback_witness :
    deserialize (fun i => toString i) "x" =
      some [⟨"0", "x", some "x", false, false⟩] :=
  ((decode_plain_text_fallback (fun i => toString i) "x").1 (by decide)).2 (by decide)

/-- C10: the empty case is asymmetric: a version-1 payload with an
empty chips array (the encoding of the empty list) decodes to a success
with zero tokens, while a fallback input with zero usable segments is a
failure. -/
theorem decode_empty_payload_asymmetry (genId : Nat → String) :
    deserialize genId (serialize []) = some [] ∧
    serialize [] = CLIPBOARD_MARKER ++ "\x7b\"version\":1,\"chips\":[]\x7d" ∧
    deserialize genId "" = none ∧
    deserialize genId ",,,," = none :=
  ⟨rfl, rfl, rfl, rfl⟩
